import Mathlib

/-!
Verification development for the `vic` acquisition-to-dataset converter.

The Python sources embedded here are `src/vic/__init__.py` (the dataset
assembler `assemble_metadata`, including the content addresser of lines
175-193) and `src/vic/deviceconfig.py` (the device-config normalizer).
The tag-range reconstructor (`vic/acquisitioninfo.py`) is not part of the
provided sources, so it is modelled from the specification, as marked on
its definition.

Bytes are modelled as `List Nat` (each entry a byte value), machine words
as `Nat` reduced modulo `2 ^ 32`, Python strings as `String` or
`List Char`, and Python `float` payloads (which are only stored, never
computed with, in the code under verification) as `ℚ`.
-/

set_option maxRecDepth 200000

set_option maxHeartbeats 2000000

namespace Vic

/-! ### SHA-256 (the digest used by the content addresser)

`assemble_metadata` calls `hashlib.sha256` and feeds it the file's bytes in
chunks; the digest of the stream equals the digest of the concatenated
bytes.  The FIPS 180-4 algorithm is embedded here over `Nat` words reduced
modulo `2 ^ 32`. -/

def M32 : Nat := 2 ^ 32

/-- Rotates a word right by `n` bit positions, wrapping into 32 bits. -/
def rotr (n x : Nat) : Nat := ((x >>> n) ||| (x <<< (32 - n))) % M32

def bigS0 (x : Nat) : Nat := (rotr 2 x) ^^^ (rotr 13 x) ^^^ (rotr 22 x)

def bigS1 (x : Nat) : Nat := (rotr 6 x) ^^^ (rotr 11 x) ^^^ (rotr 25 x)

def smallS0 (x : Nat) : Nat := (rotr 7 x) ^^^ (rotr 18 x) ^^^ (x >>> 3)

def smallS1 (x : Nat) : Nat := (rotr 17 x) ^^^ (rotr 19 x) ^^^ (x >>> 10)

def chFn (e f g : Nat) : Nat := (e &&& f) ^^^ ((e ^^^ (M32 - 1)) &&& g)

def majFn (a b c : Nat) : Nat := (a &&& b) ^^^ (a &&& c) ^^^ (b &&& c)

/-- The 64 SHA-256 round constants. -/
def K256 : List Nat :=
  [1116352408, 1899447441, 3049323471, 3921009573, 961987163,
   1508970993, 2453635748, 2870763221, 3624381080, 310598401,
   607225278, 1426881987, 1925078388, 2162078206, 2614888103,
   3248222580, 3835390401, 4022224774, 264347078, 604807628,
   770255983, 1249150122, 1555081692, 1996064986, 2554220882,
   2821834349, 2952996808, 3210313671, 3336571891, 3584528711,
   113926993, 338241895, 666307205, 773529912, 1294757372,
   1396182291, 1695183700, 1986661051, 2177026350, 2456956037,
   2730485921, 2820302411, 3259730800, 3345764771, 3516065817,
   3600352804, 4094571909, 275423344, 430227734, 506948616,
   659060556, 883997877, 958139571, 1322822218, 1537002063,
   1747873779, 1955562222, 2024104815, 2227730452, 2361852424,
   2428436474, 2756734187, 3204031479, 3329325298]

/-- The eight-word chaining state of the compression function. -/
structure Hash8 where
  a : Nat
  b : Nat
  c : Nat
  d : Nat
  e : Nat
  f : Nat
  g : Nat
  h : Nat
deriving DecidableEq

def initHash : Hash8 :=
  ⟨1779033703, 3144134277, 1013904242, 2773480762,
   1359893119, 2600822924, 528734635, 1541459225⟩

/-- Message-schedule extension: prepends `n` further words to the reversed
schedule `ws`. -/
def scheduleGo : List Nat → Nat → List Nat
  | ws, 0 => ws
  | ws, n + 1 =>
      scheduleGo
        (((smallS1 (ws.getD 1 0) + ws.getD 6 0 + smallS0 (ws.getD 14 0) +
            ws.getD 15 0) % M32) :: ws) n

/-- The 64-word message schedule of one 16-word block. -/
def schedule (block : List Nat) : List Nat := (scheduleGo block.reverse 48).reverse

/-- One round of the SHA-256 compression function. -/
def roundFn (st : Hash8) (kw : Nat × Nat) : Hash8 :=
  let t1 := (st.h + bigS1 st.e + chFn st.e st.f st.g + kw.1 + kw.2) % M32
  let t2 := (bigS0 st.a + majFn st.a st.b st.c) % M32
  ⟨(t1 + t2) % M32, st.a, st.b, st.c, (st.d + t1) % M32, st.e, st.f, st.g⟩

/-- Compress one 16-word block into the chaining state. -/
def compress (st : Hash8) (block : List Nat) : Hash8 :=
  let r := (K256.zip (schedule block)).foldl roundFn st
  ⟨(st.a + r.a) % M32, (st.b + r.b) % M32, (st.c + r.c) % M32,
   (st.d + r.d) % M32, (st.e + r.e) % M32, (st.f + r.f) % M32,
   (st.g + r.g) % M32, (st.h + r.h) % M32⟩

/-- Big-endian packing of bytes into 32-bit words (leftover bytes cannot
occur on padded input). -/
def bytesToWords : List Nat → List Nat
  | b0 :: b1 :: b2 :: b3 :: rest =>
      ((b0 <<< 24 ||| b1 <<< 16 ||| b2 <<< 8 ||| b3) % M32) :: bytesToWords rest
  | _ => []

/-- Grouping of the word stream into 16-word blocks. -/
def wordsToBlocks : List Nat → List (List Nat)
  | w0 :: w1 :: w2 :: w3 :: w4 :: w5 :: w6 :: w7 ::
    w8 :: w9 :: w10 :: w11 :: w12 :: w13 :: w14 :: w15 :: rest =>
      [w0, w1, w2, w3, w4, w5, w6, w7, w8, w9, w10, w11, w12, w13, w14, w15] ::
        wordsToBlocks rest
  | _ => []

/-- FIPS 180-4 padding: a `0x80` byte, zeros up to 56 mod 64, then the
bit length as 8 big-endian bytes. -/
def padMessage (msg : List Nat) : List Nat :=
  let len := msg.length
  let zeros := (119 - (len % 64)) % 64
  let bitLen := 8 * len
  msg ++ 0x80 :: List.replicate zeros 0 ++
    [(bitLen >>> 56) % 256, (bitLen >>> 48) % 256, (bitLen >>> 40) % 256,
     (bitLen >>> 32) % 256, (bitLen >>> 24) % 256, (bitLen >>> 16) % 256,
     (bitLen >>> 8) % 256, bitLen % 256]

/-- Big-endian bytes of one 32-bit word. -/
def wordToBytes (w : Nat) : List Nat :=
  [(w >>> 24) % 256, (w >>> 16) % 256, (w >>> 8) % 256, w % 256]

/-- The SHA-256 digest (32 bytes) of a byte string. -/
def sha256 (msg : List Nat) : List Nat :=
  let fin := (wordsToBlocks (bytesToWords (padMessage msg))).foldl compress initHash
  wordToBytes fin.a ++ wordToBytes fin.b ++ wordToBytes fin.c ++ wordToBytes fin.d ++
    wordToBytes fin.e ++ wordToBytes fin.f ++ wordToBytes fin.g ++ wordToBytes fin.h

/-! ### Base-32 encoding (RFC 4648, as `base64.b32encode`) -/

def b32Alphabet : List Char :=
  ['A', 'B', 'C', 'D', 'E', 'F', 'G', 'H', 'I', 'J', 'K', 'L', 'M',
   'N', 'O', 'P', 'Q', 'R', 'S', 'T', 'U', 'V', 'W', 'X', 'Y', 'Z',
   '2', '3', '4', '5', '6', '7']

def b32Char (n : Nat) : Char := b32Alphabet.getD n 'A'

/-- The eight alphabet characters of one (zero-padded) 5-byte quantum. -/
def b32Quantum (b0 b1 b2 b3 b4 : Nat) : List Char :=
  let v := b0 <<< 32 ||| b1 <<< 24 ||| b2 <<< 16 ||| b3 <<< 8 ||| b4
  [b32Char ((v >>> 35) % 32), b32Char ((v >>> 30) % 32), b32Char ((v >>> 25) % 32),
   b32Char ((v >>> 20) % 32), b32Char ((v >>> 15) % 32), b32Char ((v >>> 10) % 32),
   b32Char ((v >>> 5) % 32), b32Char (v % 32)]

/-- RFC 4648 base-32 encoding of a byte string, with `=` padding, as
produced by Python's `base64.b32encode`. -/
def b32Encode : List Nat → List Char
  | [] => []
  | [b0] => (b32Quantum b0 0 0 0 0).take 2 ++ List.replicate 6 '='
  | [b0, b1] => (b32Quantum b0 b1 0 0 0).take 4 ++ List.replicate 4 '='
  | [b0, b1, b2] => (b32Quantum b0 b1 b2 0 0).take 5 ++ List.replicate 3 '='
  | [b0, b1, b2, b3] => (b32Quantum b0 b1 b2 b3 0).take 7 ++ List.replicate 1 '='
  | b0 :: b1 :: b2 :: b3 :: b4 :: rest => b32Quantum b0 b1 b2 b3 b4 ++ b32Encode rest

/-! ### The content addresser (lines 175-193 of `src/vic/__init__.py`) -/

/-- `file_id = b32encode(digest.digest()).decode("utf-8").lower()`. -/
def fileId (content : List Nat) : List Char := (b32Encode (sha256 content)).map Char.toLower

/-- `FILENAME_DIGEST_TRUNCATION_LENGTH = 8`, and the fixed extension
`csv`: the derived short on-disk name of a file with the given bytes. -/
def shortName (content : List Nat) : List Char :=
  (fileId content).take 8 ++ ['.', 'c', 's', 'v']

/-! ### Tag events and tag ranges -/

inductive TagKind
  | start
  | stop
deriving DecidableEq

/-- One tagged acquisition-log event: a label, a start/stop kind and a
timestamp.  Timestamps are only ever compared, never computed with, so
they are modelled as integers. -/
structure TagEvent where
  label : String
  kind : TagKind
  time : Int
deriving DecidableEq

/-- One reconstructed closed interval for one label. -/
structure TagRange where
  label : String
  start_time : Int
  end_time : Int
deriving DecidableEq

/-- First pending start time recorded for a label, if any. -/
def lookupPending : List (String × Int) → String → Option Int
  | [], _ => none
  | (l, t) :: rest, lab => if l = lab then some t else lookupPending rest lab

/-- Removes the pending start recorded for a label. -/
def removePending : List (String × Int) → String → List (String × Int)
  | [], _ => []
  | (l, t) :: rest, lab =>
      if l = lab then rest else (l, t) :: removePending rest lab

/-- Modelled from the spec: the tag-range reconstructor
`TagRange.from_tag_events` lives in `vic/acquisitioninfo.py`, which is not
among the provided sources.  Following spec §4.2: walk the events keeping,
per label, the timestamp of the most recent unmatched start; a stop event
with a pending start for its label closes and emits a range; a stop
without a pending start, or a start while an unclosed start for the same
label is pending, is a malformed-log failure. -/
def tagRangesGo : List (String × Int) → List TagEvent → Except String (List TagRange)
  | _, [] => .ok []
  | pending, e :: rest =>
      match e.kind with
      | .start =>
          match lookupPending pending e.label with
          | some _ => .error ("start superseding unclosed start: " ++ e.label)
          | none => tagRangesGo ((e.label, e.time) :: pending) rest
      | .stop =>
          match lookupPending pending e.label with
          | none => .error ("stop without pending start: " ++ e.label)
          | some s =>
              (tagRangesGo (removePending pending e.label) rest).map
                (fun rs => ⟨e.label, s, e.time⟩ :: rs)

/-- Modelled from the spec: `TagRange.from_tag_events`, see `tagRangesGo`. -/
def TagRange.from_tag_events (events : List TagEvent) : Except String (List TagRange) :=
  tagRangesGo [] events

/-! ### Device configuration (`src/vic/deviceconfig.py`)

Raw attribute values of a component mapping are scalars; Python `float`
payloads are modelled as rationals (they are stored, never computed
with). -/

inductive PyValue
  | int (i : Int)
  | float (q : ℚ)
  | bool (b : Bool)
  | str (s : String)
deriving DecidableEq

/-- Python truthiness of a scalar, as used by `item["enable"]` in the
filter of `Device.get_components`. -/
def truthy : PyValue → Bool
  | .int i => i != 0
  | .float q => q != 0
  | .bool b => b
  | .str s => s != ""

/-- A raw attribute mapping (Python `Mapping[str, Any]` restricted to the
scalar values the component schema uses), in insertion order. -/
abbrev PyDict : Type := List (String × PyValue)

/-- First value stored under a key, as Python dict lookup. -/
def getVal : PyDict → String → Option PyValue
  | [], _ => none
  | (k2, v) :: rest, k => if k2 = k then some v else getVal rest k

/-- Python `mapping[key] = value`: overwrite the key in place if present
(dict insertion order keeps its position), append it otherwise. -/
def setKey : PyDict → String → PyValue → PyDict
  | [], k, v => [(k, v)]
  | (k2, v2) :: rest, k, v =>
      if k2 = k then (k, v) :: rest else (k2, v2) :: setKey rest k v

/-- `name_mapping` of `src/vic/deviceconfig.py`: injects the mapping key
as the component's `name` field. -/
def name_mapping (key : String) (m : PyDict) : PyDict := setKey m "name" (.str key)

/-- `to_named_sequence` of `src/vic/deviceconfig.py`. -/
def to_named_sequence (m : List (String × PyDict)) : List PyDict :=
  m.map (fun kv => name_mapping kv.1 kv.2)

/-- The `Component` pydantic model of `src/vic/deviceconfig.py`; the
`extra` field holds the unknown fields kept by `ConfigDict(extra="allow")`. -/
structure Component where
  name : String
  odr : Int
  fs : Option ℚ
  enable : Bool
  samples_per_ts : Int
  dim : Int
  ioffset : ℚ
  measodr : ℚ
  usb_dps : Int
  sd_dps : Int
  sensitivity : ℚ
  data_type : String
  sensor_category : Int
  c_type : Int
  stream_id : Int
  ep_id : Int
  extra : PyDict
deriving DecidableEq

/-- The declared field names of the `Component` schema. -/
def componentKeys : List String :=
  ["name", "odr", "fs", "enable", "samples_per_ts", "dim", "ioffset",
   "measodr", "usb_dps", "sd_dps", "sensitivity", "data_type",
   "sensor_category", "c_type", "stream_id", "ep_id"]

def asInt : Option PyValue → Option Int
  | some (.int i) => some i
  | _ => none

/-- Pydantic coerces integer input into `float` fields. -/
def asFloat : Option PyValue → Option ℚ
  | some (.float q) => some q
  | some (.int i) => some (i : ℚ)
  | _ => none

def asBool : Option PyValue → Option Bool
  | some (.bool b) => some b
  | _ => none

def asStr : Option PyValue → Option String
  | some (.str s) => some s
  | _ => none

/-- A required schema field: missing or ill-typed input is a validation
error naming the field. -/
def reqField (m : PyDict) (k : String) (f : Option PyValue → Option α) : Except String α :=
  match f (getVal m k) with
  | some a => .ok a
  | none => .error ("validation error: " ++ k)

/-- An `Optional` schema field defaulting to `None`: absent is fine,
present but ill-typed is a validation error. -/
def optField (m : PyDict) (k : String) (f : Option PyValue → Option α) :
    Except String (Option α) :=
  match getVal m k with
  | none => .ok none
  | some v =>
      match f (some v) with
      | some a => .ok (some a)
      | none => .error ("validation error: " ++ k)

/-- The fields kept aside by `ConfigDict(extra="allow")`. -/
def extraOf (m : PyDict) (keys : List String) : PyDict :=
  m.filter (fun kv => !(keys.contains kv.1))

/-- Sequencing of fallible steps, the first failure aborting: the
exception flow of the Python code. -/
def exBind (x : Except String α) (f : α → Except String β) : Except String β :=
  match x with
  | .error e => .error e
  | .ok a => f a

/-- `Component.model_validate`: validate a raw attribute mapping against
the `Component` schema of `src/vic/deviceconfig.py`, field by field in
declaration order, preserving unknown fields. -/
def Component.model_validate (m : PyDict) : Except String Component :=
  exBind (reqField m "name" asStr) fun name =>
  exBind (reqField m "odr" asInt) fun odr =>
  exBind (optField m "fs" asFloat) fun fs =>
  exBind (reqField m "enable" asBool) fun enable =>
  exBind (reqField m "samples_per_ts" asInt) fun samples_per_ts =>
  exBind (reqField m "dim" asInt) fun dim =>
  exBind (reqField m "ioffset" asFloat) fun ioffset =>
  exBind (reqField m "measodr" asFloat) fun measodr =>
  exBind (reqField m "usb_dps" asInt) fun usb_dps =>
  exBind (reqField m "sd_dps" asInt) fun sd_dps =>
  exBind (reqField m "sensitivity" asFloat) fun sensitivity =>
  exBind (reqField m "data_type" asStr) fun data_type =>
  exBind (reqField m "sensor_category" asInt) fun sensor_category =>
  exBind (reqField m "c_type" asInt) fun c_type =>
  exBind (reqField m "stream_id" asInt) fun stream_id =>
  exBind (reqField m "ep_id" asInt) fun ep_id =>
  .ok ⟨name, odr, fs, enable, samples_per_ts, dim, ioffset, measodr, usb_dps,
       sd_dps, sensitivity, data_type, sensor_category, c_type, stream_id,
       ep_id, extraOf m componentKeys⟩

/-- Raw input of `Device` validation (`DeviceConfig.model_validate` in
`src/vic/__init__.py`): the scalar fields of the device document plus the
`components` sequence, each element of which is a mapping from component
name to raw attribute mapping. -/
structure RawDevice where
  fields : PyDict
  components : List (List (String × PyDict))
deriving DecidableEq

/-- The declared field names of the `Device` schema (`components` via its
alias). -/
def deviceKeys : List String := ["board_id", "fw_id", "components"]

/-- The `Device` pydantic model of `src/vic/deviceconfig.py` (imported as
`DeviceConfig` by the assembler). -/
structure Device where
  board_id : Int
  fw_id : Int
  component_data : List (List (String × PyDict))
  extra : PyDict
deriving DecidableEq

/-- `Device.model_validate` over the schema of `src/vic/deviceconfig.py`:
requires `board_id` and `fw_id`, takes the component sequence from the
aliased `components` field, and preserves unknown scalar fields. -/
def Device.model_validate (raw : RawDevice) : Except String Device :=
  exBind (reqField raw.fields "board_id" asInt) fun board_id =>
  exBind (reqField raw.fields "fw_id" asInt) fun fw_id =>
  .ok ⟨board_id, fw_id, raw.components, extraOf raw.fields deviceKeys⟩

/-- One pass of the comprehension inside `Device.get_components`: the
guard `"odr" in item and ((not filter_disabled) or item["enable"])`
followed, when the guard holds, by `Component.model_validate(item)`.  A
missing `enable` key under the default filter is a `KeyError`. -/
def processItem (filter_disabled : Bool) (item : PyDict) : Except String (Option Component) :=
  if (getVal item "odr").isSome then
    if filter_disabled then
      match getVal item "enable" with
      | none => .error "KeyError: enable"
      | some v =>
          if truthy v then (Component.model_validate item).map some
          else .ok none
    else (Component.model_validate item).map some
  else .ok none

/-- Left-to-right evaluation of the comprehension of
`Device.get_components`; the first raising entry aborts the whole call. -/
def collectComponents (filter_disabled : Bool) : List PyDict → Except String (List Component)
  | [] => .ok []
  | item :: rest =>
      exBind (processItem filter_disabled item) fun c =>
      exBind (collectComponents filter_disabled rest) fun cs =>
      match c with
      | some comp => .ok (comp :: cs)
      | none => .ok cs

/-- `Device.get_components` of `src/vic/deviceconfig.py` (the Python
default for `filter_disabled` is `true`). -/
def Device.get_components (d : Device) (filter_disabled : Bool) : Except String (List Component) :=
  collectComponents filter_disabled (d.component_data.flatMap to_named_sequence)

/-! ### The dataset assembler (`assemble_metadata` of `src/vic/__init__.py`)

The filesystem state the assembler reads is modelled explicitly: the
output directory is a list of per-label subfolders, each holding the files
(name and bytes) produced by the external converter, in `listdir` order.
`Source` and `Device` references on data items are one shared snapshot per
run and are elided from the manifest model, as are the constant `name` and
`description` fields and the random `ulid` dataset id. -/

structure DiskFile where
  name : String
  content : List Nat
deriving DecidableEq

structure Subfolder where
  name : String
  files : List DiskFile
deriving DecidableEq

/-- The inputs `assemble_metadata` reads through `HSDatalog`: the tag
events of the acquisition info (also yielding the label set of
`get_time_tags`), the raw device document, and the converter's output
directory. -/
structure AcqInput where
  tagEvents : List TagEvent
  device : RawDevice
  subfolders : List Subfolder
deriving DecidableEq

structure FileItem where
  id : String
  relative_path : String
  mediaType : String
  extension : String
deriving DecidableEq

/-- One manifest data item; `className` is the `class` key of the Python
document. -/
structure DataItem where
  className : String
  start_time : Int
  end_time : Int
  file : FileItem
deriving DecidableEq

/-- The manifest document (`VespucciInertialCsvDataset`) restricted to the
run-dependent fields. -/
structure Manifest where
  classes : List String
  data : List DataItem
deriving DecidableEq

/-- Equality of two string collections as sets, as the assembler's
`set(...) == tags` assertion. -/
def sameSet (xs ys : List String) : Bool :=
  xs.all (fun x => ys.contains x) && ys.all (fun y => xs.contains y)

/-- Sequential processing of a list of fallible steps, first failure
aborting, results collected in order: the Python `for` loops that append
into an accumulator. -/
def mapExcept (f : α → Except String β) : List α → Except String (List β)
  | [] => .ok []
  | x :: rest =>
      exBind (f x) fun y =>
      exBind (mapExcept f rest) fun ys =>
      .ok (y :: ys)

/-- The data item built at lines 195-211 for one `(tag_range, file)`
pair, fields taken from the range and from the digest of the file. -/
def mkItem (subName : String) (r : TagRange) (f : DiskFile) : DataItem :=
  ⟨r.label, r.start_time, r.end_time,
    ⟨String.mk (fileId f.content),
     subName ++ "/" ++ (String.mk ((fileId f.content).take 8) ++ ".csv"),
     "text/csv", "csv"⟩⟩

/-- Lines 175-211 for one `(tag_range, file)` pair: digest the bytes,
assert the encoded digest shape, derive the short name, rename and build
the data item.  A failed digest-shape assertion aborts (it is proved
below never to fire). -/
def processPair (subName : String) (r : TagRange) (f : DiskFile) : Except String DataItem :=
  let fid := fileId f.content
  if fid.length = 56 ∧ fid.drop 52 = ['=', '=', '=', '='] then
    .ok (mkItem subName r f)
  else .error "digest length assertion"

/-- Lines 158-212 for one subfolder: select this label's ranges in order,
assert every file carries the `.csv` extension, assert the file count
matches the range count, then process the positional pairs. -/
def processSubfolder (ranges : List TagRange) (sf : Subfolder) : Except String (List DataItem) :=
  if !(sf.files.all (fun f => ".csv".toList.isSuffixOf f.name.toList)) then
    .error "extension assertion"
  else if !(sf.files.length == (ranges.filter (fun r => r.label == sf.name)).length) then
    .error "file count does not match tag range count"
  else mapExcept (fun p => processPair sf.name p.1 p.2)
    ((ranges.filter (fun r => r.label == sf.name)).zip sf.files)

/-- `assemble_metadata` of `src/vic/__init__.py` as a pure function: the
manifest is the document written to `dataset-meta.json` at the very end,
so an `Except.error` result is a run that aborted with no manifest
written.  The steps follow the source order: validate the device config
and its components, compute the distinct label set, assert it equals the
subfolder set, reconstruct the tag ranges, then process each subfolder. -/
def assemble_metadata (inp : AcqInput) : Except String Manifest :=
  exBind (Device.model_validate inp.device) fun deviceValid =>
  exBind (deviceValid.get_components true) fun _components =>
  let tags := (inp.tagEvents.map (fun e => e.label)).dedup
  if !(sameSet (inp.subfolders.map (fun sf => sf.name)) tags) then
    .error "subfolder set does not match tag label set"
  else
    exBind (TagRange.from_tag_events inp.tagEvents) fun ranges =>
    exBind (mapExcept (processSubfolder ranges) inp.subfolders) fun itemss =>
    .ok ⟨tags, itemss.flatten⟩

/-! ### Effect trace of per-file processing (lines 175-193)

For the temporal claim about digest-before-rename, the per-file body of the
assembler loop is replayed as an explicit event trace: one `read` per
`file_handle.read(DIGEST_READ_BUFFER_LENGTH)` call returning data, the
digest-shape assertion, then the destructive rename.  A failed assertion
raises, so no rename event follows it. -/

def DIGEST_READ_BUFFER_LENGTH : Nat := 512 * 2 ^ 4

inductive FsEvent
  | read (chunk : List Nat)
  | checkDigest (id : List Char)
  | rename (src dst : String)
deriving DecidableEq

/-- The successive non-empty chunks returned by the read loop (`fuel`
bounds the iteration count; each pass consumes at least one byte). -/
def chunksGo : Nat → List Nat → List (List Nat)
  | 0, _ => []
  | _ + 1, [] => []
  | fuel + 1, b :: rest =>
      ((b :: rest).take DIGEST_READ_BUFFER_LENGTH) ::
        chunksGo fuel ((b :: rest).drop DIGEST_READ_BUFFER_LENGTH)

/-- All chunks the `while` loop of lines 178-181 reads from a file. -/
def readChunks (content : List Nat) : List (List Nat) := chunksGo content.length content

/-- The event trace of lines 175-193 for one file. -/
def fileTrace (subName : String) (f : DiskFile) : List FsEvent :=
  let fid := fileId f.content
  let reads := (readChunks f.content).map FsEvent.read
  if fid.length = 56 ∧ fid.drop 52 = ['=', '=', '=', '='] then
    reads ++ [FsEvent.checkDigest fid,
      FsEvent.rename f.name (subName ++ "/" ++ (String.mk (fid.take 8) ++ ".csv"))]
  else reads ++ [FsEvent.checkDigest fid]

/-- The destructive rename of line 193 on the file model: the name becomes
the digest-derived short name, the bytes are untouched. -/
def renameFile (f : DiskFile) : DiskFile := ⟨String.mk (shortName f.content), f.content⟩

def isRename : FsEvent → Bool
  | .rename _ _ => true
  | _ => false

instance {ε α : Type} [DecidableEq ε] [DecidableEq α] : DecidableEq (Except ε α) := fun a b =>
  match a, b with
  | .error e1, .error e2 =>
      if h : e1 = e2 then .isTrue (by rw [h]) else .isFalse (by simp [h])
  | .ok a1, .ok a2 =>
      if h : a1 = a2 then .isTrue (by rw [h]) else .isFalse (by simp [h])
  | .error _, .ok _ => .isFalse (by simp)
  | .ok _, .error _ => .isFalse (by simp)

/-! ### Shape of the encoded identifier -/

theorem sha256_length (msg : List Nat) : (sha256 msg).length = 32 := rfl

theorem b32Char_mem_of_lt {n : Nat} (h : n < 32) : b32Char n ∈ b32Alphabet := by
  interval_cases n <;> decide

theorem b32Char_mod_mem (v : Nat) : b32Char (v % 32) ∈ b32Alphabet :=
  b32Char_mem_of_lt (Nat.mod_lt _ (by norm_num))

/-- A byte string of length 2 mod 5 base-32 encodes to 8 characters per
(padded) quantum, the last five being one alphabet character and then the
four padding characters. -/
theorem b32Encode_shape : ∀ (l : List Nat), l.length % 5 = 2 →
    (b32Encode l).length = 8 * (l.length / 5) + 8 ∧
    ∃ x ∈ b32Alphabet,
      (b32Encode l).drop ((b32Encode l).length - 5) = x :: ['=', '=', '=', '=']
  | [], h => by simp at h
  | [_], h => by simp at h
  | [b0, b1], _ => by
      refine ⟨by simp [b32Encode, b32Quantum], ?_⟩
      exact ⟨b32Char (((b0 <<< 32 ||| b1 <<< 24 ||| 0 <<< 16 ||| 0 <<< 8 ||| 0) >>> 20) % 32),
        b32Char_mod_mem _, rfl⟩
  | [_, _, _], h => by simp at h
  | [_, _, _, _], h => by simp at h
  | [_, _, _, _, _], h => by simp at h
  | b0 :: b1 :: b2 :: b3 :: b4 :: c :: rest, h => by
      have hr : (c :: rest).length % 5 = 2 := by
        simp only [List.length_cons] at h ⊢
        omega
      obtain ⟨ihLen, x, hx, ihDrop⟩ := b32Encode_shape (c :: rest) hr
      have hEnc : b32Encode (b0 :: b1 :: b2 :: b3 :: b4 :: c :: rest) =
          b32Quantum b0 b1 b2 b3 b4 ++ b32Encode (c :: rest) := rfl
      have hqLen : (b32Quantum b0 b1 b2 b3 b4).length = 8 := rfl
      constructor
      · rw [hEnc, List.length_append, hqLen, ihLen]
        simp only [List.length_cons]
        omega
      · refine ⟨x, hx, ?_⟩
        rw [hEnc, List.length_append, hqLen]
        have h8 : 8 + (b32Encode (c :: rest)).length - 5 =
            (b32Quantum b0 b1 b2 b3 b4).length + ((b32Encode (c :: rest)).length - 5) := by
          rw [hqLen, ihLen]; omega
        rw [h8, List.drop_append, ihDrop]

theorem lower_alphabet_ne_pad : ∀ c ∈ b32Alphabet, Char.toLower c ≠ '=' := by decide

/-- The encoded identifier of any byte string: 56 characters, the last
four of which are padding and the fifth-from-last of which is not. -/
theorem fileId_shape (content : List Nat) :
    (fileId content).length = 56 ∧
    (fileId content).drop 52 = ['=', '=', '=', '='] ∧
    (fileId content).drop 51 ≠ List.replicate 5 '=' := by
  obtain ⟨hLen, x, hx, hDrop⟩ :=
    b32Encode_shape (sha256 content) (by rw [sha256_length])
  rw [sha256_length] at hLen
  norm_num at hLen
  rw [hLen] at hDrop
  norm_num at hDrop
  have hfLen : (fileId content).length = 56 := by
    simp [fileId, hLen]
  have h51 : (fileId content).drop 51 =
      Char.toLower x :: ['=', '=', '=', '='] := by
    rw [fileId, ← List.map_drop, hDrop]
    rfl
  refine ⟨hfLen, ?_, ?_⟩
  · have : (fileId content).drop 52 = ((fileId content).drop 51).drop 1 := by
      rw [List.drop_drop]
    rw [this, h51]
    rfl
  · rw [h51]
    intro hbad
    have := List.head_eq_of_cons_eq hbad
    exact lower_alphabet_ne_pad x hx this

/-! ### The read loop consumes the whole byte stream -/

theorem chunksGo_flatten : ∀ (fuel : Nat) (bs : List Nat), bs.length ≤ fuel →
    (chunksGo fuel bs).flatten = bs
  | 0, bs, h => by
      have : bs = [] := List.eq_nil_of_length_eq_zero (Nat.le_zero.mp h)
      subst this
      rfl
  | _ + 1, [], _ => rfl
  | fuel + 1, b :: rest, h => by
      have hlen : ((b :: rest).drop DIGEST_READ_BUFFER_LENGTH).length ≤ fuel := by
        rw [List.length_drop]
        simp only [List.length_cons] at h ⊢
        have : (0 : Nat) < DIGEST_READ_BUFFER_LENGTH := by norm_num [DIGEST_READ_BUFFER_LENGTH]
        omega
      show (((b :: rest).take DIGEST_READ_BUFFER_LENGTH) ::
          chunksGo fuel ((b :: rest).drop DIGEST_READ_BUFFER_LENGTH)).flatten = b :: rest
      rw [List.flatten_cons, chunksGo_flatten fuel _ hlen, List.take_append_drop]

theorem readChunks_flatten (c : List Nat) : (readChunks c).flatten = c :=
  chunksGo_flatten c.length c le_rfl

/-! ### Claims about the content addresser -/

/-- C2: for every input byte string (any length, zero included), the
encoded identifier produced by the content addresser has length exactly 56
and ends with exactly 4 padding characters: positions 52-55 are `=` and
position 51 is not (so the last five characters are not all padding). -/
theorem content_addresser_id_shape (content : List Nat) :
    (fileId content).length = 56 ∧
    (fileId content).drop 52 = ['=', '=', '=', '='] ∧
    (fileId content).drop 51 ≠ List.replicate 5 '=' :=
  fileId_shape content

/-- C7: the content addresser is a deterministic function of the file's
bytes: equal byte contents yield equal identifiers, the chunked read loop
reproduces the identifier of the full byte stream, and changing one byte
changes the identifier on the fixed sample inputs. -/
theorem content_addresser_deterministic :
    (∀ c1 c2 : List Nat, c1 = c2 → fileId c1 = fileId c2) ∧
    (∀ c : List Nat, fileId ((readChunks c).flatten) = fileId c) ∧
    fileId [97, 98, 99] ≠ fileId [97, 98, 100] ∧
    fileId [0] ≠ fileId [1] := by
  refine ⟨fun c1 c2 h => by rw [h], fun c => by rw [readChunks_flatten], ?_, ?_⟩ <;> decide

theorem content_addresser_deterministic_witness :
    fileId [10, 20] = fileId [10, 20] :=
  content_addresser_deterministic.1 [10, 20] [10, 20] rfl

/-- C8: renaming is idempotent on the file model: a second rename is a
no-op, and renaming a file already named by its own digest-derived short
name leaves it unchanged (the rename does not touch the bytes, so the
recomputed name equals the current name). -/
theorem rename_noop (f : DiskFile) :
    renameFile (renameFile f) = renameFile f ∧
    (f.name = String.mk (shortName f.content) → renameFile f = f) := by
  refine ⟨rfl, fun h => ?_⟩
  cases f with
  | mk n c => simpa [renameFile] using h.symm

theorem rename_noop_witness :
    renameFile ⟨"xj4bnp4p.csv", [97, 98, 99]⟩ = ⟨"xj4bnp4p.csv", [97, 98, 99]⟩ :=
  (rename_noop ⟨"xj4bnp4p.csv", [97, 98, 99]⟩).2 (by decide)

/-- C5: in the per-file effect trace of lines 175-193, the destructive
rename is the final event: it is preceded by read events whose chunks
concatenate to the entire byte stream and by the digest validation (which
passes, the encoded length being 56), and no event before the last one is
a rename. -/
theorem digest_before_rename (subName : String) (f : DiskFile) :
    fileTrace subName f =
      (readChunks f.content).map FsEvent.read ++
        [FsEvent.checkDigest (fileId f.content),
         FsEvent.rename f.name
           (subName ++ "/" ++ (String.mk ((fileId f.content).take 8) ++ ".csv"))] ∧
    (readChunks f.content).flatten = f.content ∧
    (fileId f.content).length = 56 ∧
    (fileTrace subName f).dropLast.all (fun e => !(isRename e)) = true := by
  obtain ⟨h1, h2, _⟩ := fileId_shape f.content
  have htr : fileTrace subName f =
      (readChunks f.content).map FsEvent.read ++
        [FsEvent.checkDigest (fileId f.content),
         FsEvent.rename f.name
           (subName ++ "/" ++ (String.mk ((fileId f.content).take 8) ++ ".csv"))] := by
    simp only [fileTrace]
    rw [if_pos ⟨h1, h2⟩]
  refine ⟨htr, readChunks_flatten _, h1, ?_⟩
  rw [htr]
  have hsplit : (readChunks f.content).map FsEvent.read ++
      [FsEvent.checkDigest (fileId f.content),
       FsEvent.rename f.name
         (subName ++ "/" ++ (String.mk ((fileId f.content).take 8) ++ ".csv"))] =
      ((readChunks f.content).map FsEvent.read ++
        [FsEvent.checkDigest (fileId f.content)]) ++
        [FsEvent.rename f.name
          (subName ++ "/" ++ (String.mk ((fileId f.content).take 8) ++ ".csv"))] := by
    simp
  rw [hsplit, List.dropLast_concat, List.all_append]
  simp [isRename, List.all_map]

/-! ### Tag-range reconstruction -/

theorem lookupPending_mem : ∀ (p : List (String × Int)) (lab : String) (t : Int),
    lookupPending p lab = some t → (lab, t) ∈ p
  | [], _, _, h => by simp [lookupPending] at h
  | (l, s) :: rest, lab, t, h => by
      by_cases hl : l = lab
      · subst hl
        simp [lookupPending] at h
        subst h
        exact List.mem_cons_self _ _
      · simp [lookupPending, hl] at h
        exact List.mem_cons_of_mem _ (lookupPending_mem rest lab t h)

theorem removePending_mem : ∀ (p : List (String × Int)) (lab : String)
    (q : String × Int), q ∈ removePending p lab → q ∈ p
  | [], _, _, h => by simp [removePending] at h
  | (l, s) :: rest, lab, q, h => by
      by_cases hl : l = lab
      · rw [removePending, if_pos hl] at h
        exact List.mem_cons_of_mem _ h
      · rw [removePending, if_neg hl] at h
        rcases List.mem_cons.mp h with h | h
        · exact h ▸ List.mem_cons_self _ _
        · exact List.mem_cons_of_mem _ (removePending_mem rest lab q h)

/-- Invariant proof for the reconstruction loop: on chronologically sorted
input, a successful run emits only ranges with `start_time ≤ end_time`,
and per label exactly one range per stop event (each stop closes one
complete start/stop pair). -/
theorem tagRangesGo_spec : ∀ (events : List TagEvent) (pending : List (String × Int))
    (rs : List TagRange),
    events.Pairwise (fun a b => a.time ≤ b.time) →
    (∀ q ∈ pending, ∀ e ∈ events, q.2 ≤ e.time) →
    tagRangesGo pending events = .ok rs →
    (∀ r ∈ rs, r.start_time ≤ r.end_time) ∧
    (∀ lab : String, rs.countP (fun r => r.label == lab) =
        events.countP (fun e => e.label == lab && (e.kind == TagKind.stop))) := by
  intro events
  induction events with
  | nil =>
      intro pending rs _ _ hok
      simp only [tagRangesGo] at hok
      cases hok
      simp
  | cons e rest ih =>
      intro pending rs hsort hinv hok
      obtain ⟨lab, kind, t⟩ := e
      rw [List.pairwise_cons] at hsort
      cases kind with
      | start =>
          cases hlook : lookupPending pending lab with
          | some s => simp [tagRangesGo, hlook] at hok
          | none =>
              simp only [tagRangesGo, hlook] at hok
              have hinv2 : ∀ q ∈ (lab, t) :: pending, ∀ e2 ∈ rest, q.2 ≤ e2.time := by
                intro q hq e2 he2
                rcases List.mem_cons.mp hq with h | h
                · rw [h]
                  exact hsort.1 e2 he2
                · exact hinv q h e2 (List.mem_cons_of_mem _ he2)
              obtain ⟨hle, hcount⟩ := ih ((lab, t) :: pending) rs hsort.2 hinv2 hok
              refine ⟨hle, fun lab2 => ?_⟩
              rw [hcount lab2, List.countP_cons]
              simp
      | stop =>
          cases hlook : lookupPending pending lab with
          | none => simp [tagRangesGo, hlook] at hok
          | some s =>
              simp only [tagRangesGo, hlook] at hok
              cases hgo : tagRangesGo (removePending pending lab) rest with
              | error err => rw [hgo] at hok; simp [Except.map] at hok
              | ok rs2 =>
                  rw [hgo] at hok
                  simp only [Except.map] at hok
                  cases hok
                  have hinv2 : ∀ q ∈ removePending pending lab, ∀ e2 ∈ rest, q.2 ≤ e2.time :=
                    fun q hq e2 he2 =>
                      hinv q (removePending_mem _ _ _ hq) e2 (List.mem_cons_of_mem _ he2)
                  obtain ⟨hle, hcount⟩ := ih _ rs2 hsort.2 hinv2 hgo
                  constructor
                  · intro r hr
                    rcases List.mem_cons.mp hr with h | h
                    · rw [h]
                      exact hinv (lab, s) (lookupPending_mem _ _ _ hlook)
                        ⟨lab, TagKind.stop, t⟩ (List.mem_cons_self _ _)
                    · exact hle r h
                  · intro lab2
                    rw [List.countP_cons, List.countP_cons, hcount lab2]
                    simp

/-- C6: the tag-range reconstructor fails on a stop event with no pending
start for its label and on a start event superseding an unclosed start for
the same label; the empty event sequence yields the empty range sequence;
and on every chronologically ordered sequence it accepts, every emitted
range satisfies `start_time ≤ end_time` and each label gets exactly one
range per complete start/stop pair (one per stop event it accepts). -/
theorem tag_range_reconstruction :
    TagRange.from_tag_events [] = Except.ok [] ∧
    (∀ (pending : List (String × Int)) (lab : String) (t : Int) (rest : List TagEvent),
       lookupPending pending lab = none →
       tagRangesGo pending (⟨lab, TagKind.stop, t⟩ :: rest) =
         Except.error ("stop without pending start: " ++ lab)) ∧
    (∀ (pending : List (String × Int)) (lab : String) (t s : Int) (rest : List TagEvent),
       lookupPending pending lab = some s →
       tagRangesGo pending (⟨lab, TagKind.start, t⟩ :: rest) =
         Except.error ("start superseding unclosed start: " ++ lab)) ∧
    (∀ (events : List TagEvent) (rs : List TagRange),
       events.Pairwise (fun a b => a.time ≤ b.time) →
       TagRange.from_tag_events events = Except.ok rs →
       (∀ r ∈ rs, r.start_time ≤ r.end_time) ∧
       (∀ lab : String, rs.countP (fun r => r.label == lab) =
           events.countP (fun e => e.label == lab && (e.kind == TagKind.stop)))) := by
  refine ⟨rfl, ?_, ?_, ?_⟩
  · intro pending lab t rest hlook
    simp [tagRangesGo, hlook]
  · intro pending lab t s rest hlook
    simp [tagRangesGo, hlook]
  · intro events rs hsort hok
    exact tagRangesGo_spec events [] rs hsort (by simp) hok

theorem tag_range_reconstruction_witness :
    (([⟨"walk", 0, 10⟩] : List TagRange).countP (fun r => r.label == "walk")) =
      (([⟨"walk", TagKind.start, 0⟩, ⟨"walk", TagKind.stop, 10⟩] :
          List TagEvent).countP (fun e => e.label == "walk" && (e.kind == TagKind.stop))) :=
  (tag_range_reconstruction.2.2.2
      [⟨"walk", TagKind.start, 0⟩, ⟨"walk", TagKind.stop, 10⟩]
      [⟨"walk", 0, 10⟩] (by decide) (by decide)).2 "walk"

/-! ### Device-config normalization and schema validation -/

def isFailure : Except String α → Bool
  | .error _ => true
  | .ok _ => false

theorem getVal_setKey_ne : ∀ (m : PyDict) (k k2 : String) (v : PyValue),
    k2 ≠ k → getVal (setKey m k v) k2 = getVal m k2
  | [], k, k2, v, h => by
      simp only [setKey, getVal]
      rw [if_neg (fun hh => h hh.symm)]
  | (k3, v3) :: rest, k, k2, v, h => by
      simp only [setKey]
      by_cases h3 : k3 = k
      · rw [if_pos h3]
        simp only [getVal]
        rw [if_neg (fun hh => h hh.symm), if_neg (fun hh => h ((h3.symm.trans hh).symm))]
      · rw [if_neg h3]
        simp only [getVal]
        by_cases h32 : k3 = k2
        · rw [if_pos h32, if_pos h32]
        · rw [if_neg h32, if_neg h32]
          exact getVal_setKey_ne rest k k2 v h

theorem getVal_append_single : ∀ (m : PyDict) (k2 k : String) (v : PyValue),
    k2 ≠ k → getVal (m ++ [(k, v)]) k2 = getVal m k2
  | [], k2, k, v, h => by
      simp only [List.nil_append, getVal]
      rw [if_neg (fun hh => h hh.symm)]
  | (k3, v3) :: rest, k2, k, v, h => by
      simp only [List.cons_append, getVal]
      by_cases h32 : k3 = k2
      · rw [if_pos h32, if_pos h32]
      · rw [if_neg h32, if_neg h32]
        exact getVal_append_single rest k2 k v h

theorem extraOf_append_single (m : PyDict) (keys : List String) (k : String)
    (v : PyValue) (h : k ∉ keys) :
    extraOf (m ++ [(k, v)]) keys = extraOf m keys ++ [(k, v)] := by
  simp [extraOf, List.filter_append, h]

theorem reqField_append_single (m : PyDict) (key k : String) (v : PyValue)
    (f : Option PyValue → Option α) (h : key ≠ k) :
    reqField (m ++ [(k, v)]) key f = reqField m key f := by
  unfold reqField
  rw [getVal_append_single m key k v h]

theorem optField_append_single (m : PyDict) (key k : String) (v : PyValue)
    (f : Option PyValue → Option α) (h : key ≠ k) :
    optField (m ++ [(k, v)]) key f = optField m key f := by
  unfold optField
  rw [getVal_append_single m key k v h]

/-- C9: validation of `Component` and `Device` records tolerates fields
beyond the declared schema: appending an unknown field to valid input
still validates, and the validated record preserves the extra field
(alongside the previously kept ones) rather than dropping it. -/
theorem schema_extra_fields_preserved :
    (∀ (m : PyDict) (c : Component) (k : String) (v : PyValue),
       k ∉ componentKeys → getVal m k = none →
       Component.model_validate m = .ok c →
       Component.model_validate (m ++ [(k, v)]) =
         .ok { c with extra := c.extra ++ [(k, v)] }) ∧
    (∀ (raw : RawDevice) (d : Device) (k : String) (v : PyValue),
       k ∉ deviceKeys → getVal raw.fields k = none →
       Device.model_validate raw = .ok d →
       Device.model_validate ⟨raw.fields ++ [(k, v)], raw.components⟩ =
         .ok { d with extra := d.extra ++ [(k, v)] }) := by
  constructor
  · intro m c k v hk _ hval
    have hne : ∀ key, key ∈ componentKeys → key ≠ k :=
      fun key hkey he => hk (he ▸ hkey)
    have g1 := reqField_append_single m "name" k v asStr (hne _ (by simp [componentKeys]))
    have g2 := reqField_append_single m "odr" k v asInt (hne _ (by simp [componentKeys]))
    have g3 := optField_append_single m "fs" k v asFloat (hne _ (by simp [componentKeys]))
    have g4 := reqField_append_single m "enable" k v asBool (hne _ (by simp [componentKeys]))
    have g5 := reqField_append_single m "samples_per_ts" k v asInt (hne _ (by simp [componentKeys]))
    have g6 := reqField_append_single m "dim" k v asInt (hne _ (by simp [componentKeys]))
    have g7 := reqField_append_single m "ioffset" k v asFloat (hne _ (by simp [componentKeys]))
    have g8 := reqField_append_single m "measodr" k v asFloat (hne _ (by simp [componentKeys]))
    have g9 := reqField_append_single m "usb_dps" k v asInt (hne _ (by simp [componentKeys]))
    have g10 := reqField_append_single m "sd_dps" k v asInt (hne _ (by simp [componentKeys]))
    have g11 := reqField_append_single m "sensitivity" k v asFloat (hne _ (by simp [componentKeys]))
    have g12 := reqField_append_single m "data_type" k v asStr (hne _ (by simp [componentKeys]))
    have g13 := reqField_append_single m "sensor_category" k v asInt (hne _ (by simp [componentKeys]))
    have g14 := reqField_append_single m "c_type" k v asInt (hne _ (by simp [componentKeys]))
    have g15 := reqField_append_single m "stream_id" k v asInt (hne _ (by simp [componentKeys]))
    have g16 := reqField_append_single m "ep_id" k v asInt (hne _ (by simp [componentKeys]))
    have gx : extraOf (m ++ [(k, v)]) componentKeys =
        extraOf m componentKeys ++ [(k, v)] :=
      extraOf_append_single m componentKeys k v hk
    unfold Component.model_validate exBind at hval ⊢
    rw [g1, g2, g3, g4, g5, g6, g7, g8, g9, g10, g11, g12, g13, g14, g15, g16, gx]
    repeat' split at hval
    all_goals (try (cases hval))
    all_goals simp_all
  · intro raw d k v hk _ hval
    have hne : ∀ key, key ∈ deviceKeys → key ≠ k :=
      fun key hkey he => hk (he ▸ hkey)
    have g1 := reqField_append_single raw.fields "board_id" k v asInt
      (hne _ (by simp [deviceKeys]))
    have g2 := reqField_append_single raw.fields "fw_id" k v asInt
      (hne _ (by simp [deviceKeys]))
    have gx : extraOf (raw.fields ++ [(k, v)]) deviceKeys =
        extraOf raw.fields deviceKeys ++ [(k, v)] :=
      extraOf_append_single raw.fields deviceKeys k v hk
    unfold Device.model_validate exBind at hval ⊢
    simp only at hval ⊢
    rw [g1, g2, gx]
    repeat' split at hval
    all_goals (try (cases hval))
    all_goals simp_all

def mExtra : PyDict :=
  [("name", .str "acc"), ("odr", .int 100), ("fs", .float 2), ("enable", .bool true),
   ("samples_per_ts", .int 1), ("dim", .int 3), ("ioffset", .float 0),
   ("measodr", .float 0), ("usb_dps", .int 0), ("sd_dps", .int 0),
   ("sensitivity", .float 1), ("data_type", .str "int16"),
   ("sensor_category", .int 0), ("c_type", .int 0), ("stream_id", .int 0),
   ("ep_id", .int 0)]

def cExtra : Component :=
  ⟨"acc", 100, some 2, true, 1, 3, 0, 0, 0, 0, 1, "int16", 0, 0, 0, 0, []⟩

theorem schema_extra_fields_preserved_witness :
    Component.model_validate (mExtra ++ [("vendor", PyValue.str "st")]) =
      .ok { cExtra with extra := cExtra.extra ++ [("vendor", PyValue.str "st")] } :=
  schema_extra_fields_preserved.1 mExtra cExtra "vendor" (PyValue.str "st")
    (by decide) (by decide) (by decide)

theorem exBind_ok_id (x : Except String α) : exBind x (fun a => Except.ok a) = x := by
  cases x <;> rfl

theorem reqField_ok_iff {m : PyDict} {k : String} {f : Option PyValue → Option α}
    {a : α} : reqField m k f = Except.ok a ↔ f (getVal m k) = some a := by
  unfold reqField
  split <;> simp_all

/-- A successfully validated component's `enable` field is the boolean
stored under the `enable` key of its input mapping. -/
theorem model_validate_enable (m : PyDict) (c : Component)
    (h : Component.model_validate m = .ok c) :
    asBool (getVal m "enable") = some c.enable := by
  unfold Component.model_validate exBind at h
  repeat' split at h
  all_goals (try (cases h))
  all_goals simp_all [reqField_ok_iff]

/-- What a successful, component-producing pass of the comprehension
guard plus validation implies about the entry. -/
theorem processItem_ok_some (fd : Bool) (item : PyDict) (comp : Component)
    (h : processItem fd item = .ok (some comp)) :
    Component.model_validate item = .ok comp ∧
    (fd = true → comp.enable = true) := by
  unfold processItem at h
  by_cases hodr : (getVal item "odr").isSome
  · rw [if_pos hodr] at h
    cases fd with
    | false =>
        simp only [Bool.false_eq_true, if_false] at h
        cases hv : Component.model_validate item with
        | error e => rw [hv] at h; simp [Except.map] at h
        | ok c2 =>
            rw [hv] at h
            simp only [Except.map, Except.ok.injEq, Option.some.injEq] at h
            exact ⟨by rw [h], fun hf => by cases hf⟩
    | true =>
        simp only [if_true] at h
        cases hen : getVal item "enable" with
        | none =>
            rw [hen] at h
            have h2 : (Except.error "KeyError: enable" : Except String (Option Component)) =
                Except.ok (some comp) := h
            exact (nomatch h2)
        | some v =>
            rw [hen] at h
            have h2 : (if truthy v = true then Except.map some (Component.model_validate item)
                else Except.ok none) = Except.ok (some comp) := h
            by_cases htr : truthy v = true
            · rw [if_pos htr] at h2
              cases hv : Component.model_validate item with
              | error e => rw [hv] at h2; simp [Except.map] at h2
              | ok c2 =>
                  rw [hv] at h2
                  simp only [Except.map, Except.ok.injEq, Option.some.injEq] at h2
                  have hv2 : Component.model_validate item = Except.ok comp := by
                    rw [hv, h2]
                  refine ⟨by rw [h2], fun _ => ?_⟩
                  have hb := model_validate_enable item comp hv2
                  rw [hen] at hb
                  cases v with
                  | bool b =>
                      simp only [asBool, Option.some.injEq] at hb
                      simp only [truthy] at htr
                      rw [← hb]
                      exact htr
                  | int i => simp [asBool] at hb
                  | float q => simp [asBool] at hb
                  | str s => simp [asBool] at hb
            · rw [if_neg htr] at h2
              simp at h2
  · rw [if_neg hodr] at h
    simp at h

theorem toNamedSequence_filter (m : List (String × PyDict)) :
    to_named_sequence (m.filter (fun kv => (getVal kv.2 "odr").isSome)) =
      (to_named_sequence m).filter (fun item => (getVal item "odr").isSome) := by
  induction m with
  | nil => rfl
  | cons kv rest ih =>
      obtain ⟨key, attrs⟩ := kv
      have hodr : getVal (name_mapping key attrs) "odr" = getVal attrs "odr" :=
        getVal_setKey_ne attrs "name" "odr" (PyValue.str key) (by decide)
      simp only [to_named_sequence, List.map_cons, List.filter_cons] at ih ⊢
      by_cases h : (getVal attrs "odr").isSome = true
      · rw [if_pos h, if_pos (by rw [hodr]; exact h), List.map_cons, ih]
      · rw [if_neg h, if_neg (by rw [hodr]; exact h), ih]

theorem flatMap_toNamedSequence_filter (data : List (List (String × PyDict))) :
    (data.map (fun m => m.filter (fun kv => (getVal kv.2 "odr").isSome))).flatMap
        to_named_sequence =
      (data.flatMap to_named_sequence).filter (fun item => (getVal item "odr").isSome) := by
  induction data with
  | nil => rfl
  | cons m rest ih =>
      simp [List.flatMap_cons, List.filter_append, ih, toNamedSequence_filter]

/-- Entries without a sampling-rate key contribute nothing: the collection
over the odr-filtered item list equals the collection over the full item
list (no inclusion, no failure). -/
theorem collectComponents_filter_odr (fd : Bool) : ∀ (items : List PyDict),
    collectComponents fd (items.filter (fun item => (getVal item "odr").isSome)) =
      collectComponents fd items
  | [] => rfl
  | item :: rest => by
      by_cases h : (getVal item "odr").isSome
      · rw [List.filter_cons, if_pos (by simpa using h)]
        show collectComponents fd (item :: _) = _
        simp only [collectComponents]
        rw [collectComponents_filter_odr fd rest]
      · rw [List.filter_cons, if_neg (by simpa using h)]
        rw [collectComponents_filter_odr fd rest]
        have hpi : processItem fd item = .ok none := by
          unfold processItem
          rw [if_neg h]
        show _ = collectComponents fd (item :: rest)
        conv_rhs => rw [collectComponents]
        rw [hpi]
        show _ = exBind (collectComponents fd rest) fun cs => Except.ok cs
        rw [exBind_ok_id]

/-- Every component a successful collection returns comes from an item of
the list that validates to it; under the default filter it is enabled. -/
theorem collectComponents_ok_mem (fd : Bool) : ∀ (items : List PyDict)
    (comps : List Component), collectComponents fd items = .ok comps →
    ∀ c ∈ comps, (fd = true → c.enable = true) ∧
      ∃ item ∈ items, Component.model_validate item = .ok c
  | [], comps, h => by
      simp only [collectComponents, Except.ok.injEq] at h
      subst h
      simp
  | item :: rest, comps, h => by
      simp only [collectComponents] at h
      cases hpi : processItem fd item with
      | error e => rw [hpi] at h; simp [exBind] at h
      | ok copt =>
          rw [hpi] at h
          simp only [exBind] at h
          cases hrest : collectComponents fd rest with
          | error e => rw [hrest] at h; simp at h
          | ok cs =>
              rw [hrest] at h
              cases copt with
              | none =>
                  simp only [Except.ok.injEq] at h
                  subst h
                  intro c hc
                  obtain ⟨henb, item2, hmem, hv⟩ :=
                    collectComponents_ok_mem fd rest cs hrest c hc
                  exact ⟨henb, item2, List.mem_cons_of_mem _ hmem, hv⟩
              | some comp =>
                  simp only [Except.ok.injEq] at h
                  subst h
                  intro c hc
                  rcases List.mem_cons.mp hc with hc | hc
                  · subst hc
                    obtain ⟨hv, henb⟩ := processItem_ok_some fd item c hpi
                    exact ⟨henb, item, List.mem_cons_self _ _, hv⟩
                  · obtain ⟨henb, item2, hmem, hv⟩ :=
                      collectComponents_ok_mem fd rest cs hrest c hc
                    exact ⟨henb, item2, List.mem_cons_of_mem _ hmem, hv⟩

/-- A single entry whose pass raises makes the whole collection raise. -/
theorem collectComponents_fail (fd : Bool) : ∀ (items : List PyDict) (item : PyDict),
    item ∈ items → isFailure (processItem fd item) = true →
    isFailure (collectComponents fd items) = true
  | [], _, h, _ => by simp at h
  | it :: rest, item, h, hfail => by
      rcases List.mem_cons.mp h with h | h
      · subst h
        cases hpi : processItem fd item with
        | error e => simp [collectComponents, hpi, exBind, isFailure]
        | ok c => rw [hpi] at hfail; simp [isFailure] at hfail
      · cases hpi : processItem fd it with
        | error e => simp [collectComponents, hpi, exBind, isFailure]
        | ok c =>
            have hr := collectComponents_fail fd rest item h hfail
            cases hrest : collectComponents fd rest with
            | error e =>
                simp only [collectComponents, hpi, hrest, exBind]
                simp [isFailure]
            | ok cs => rw [hrest] at hr; simp [isFailure] at hr

/-- C3: the device-config normalizer (a) treats entries lacking the
sampling-rate key `odr` as absent — dropping them from the raw component
mappings changes neither success nor output, so they are never included
and never cause failure — and (b) on success every returned component
comes from an entry that validates as a `Component`, and under the
default disabled-filter every returned component is enabled. -/
theorem normalizer_filter_spec :
    (∀ (d : Device) (fd : Bool),
       Device.get_components
         ⟨d.board_id, d.fw_id,
          d.component_data.map (fun m => m.filter (fun kv => (getVal kv.2 "odr").isSome)),
          d.extra⟩ fd = Device.get_components d fd) ∧
    (∀ (d : Device) (fd : Bool) (comps : List Component),
       Device.get_components d fd = .ok comps →
       ∀ c ∈ comps, (fd = true → c.enable = true) ∧
         ∃ item ∈ d.component_data.flatMap to_named_sequence,
           Component.model_validate item = .ok c) := by
  constructor
  · intro d fd
    show collectComponents fd _ = collectComponents fd _
    rw [flatMap_toNamedSequence_filter, collectComponents_filter_odr]
  · intro d fd comps h c hc
    exact collectComponents_ok_mem fd _ comps h c hc

def accAttrs : PyDict :=
  [("odr", .int 100), ("fs", .float 2), ("enable", .bool true),
   ("samples_per_ts", .int 1), ("dim", .int 3), ("ioffset", .float 0),
   ("measodr", .float 0), ("usb_dps", .int 0), ("sd_dps", .int 0),
   ("sensitivity", .float 1), ("data_type", .str "int16"),
   ("sensor_category", .int 0), ("c_type", .int 0), ("stream_id", .int 0),
   ("ep_id", .int 0)]

def devC : Device :=
  ⟨1, 2, [[("accelerometer", accAttrs), ("board_info", [("serial", .str "abc")])]], []⟩

def accComp : Component :=
  ⟨"accelerometer", 100, some 2, true, 1, 3, 0, 0, 0, 0, 1, "int16", 0, 0, 0, 0, []⟩

theorem normalizer_filter_spec_witness : accComp.enable = true :=
  (normalizer_filter_spec.2 devC true [accComp] (by decide) accComp
      (List.mem_cons_self _ _)).1 rfl

/-- C10: a component-mapping entry that carries the sampling-rate key
`odr` but no `enable` key makes `get_components` under the default
disabled-filter raise (the Python `item["enable"]` lookup is a
`KeyError`), rather than skip or include the entry. -/
theorem get_components_missing_enable (d : Device)
    (h : ∃ m ∈ d.component_data, ∃ kv ∈ m,
        (getVal kv.2 "odr").isSome = true ∧ getVal kv.2 "enable" = none) :
    isFailure (Device.get_components d true) = true := by
  obtain ⟨m, hm, kv, hkv, hodr, hen⟩ := h
  have hitem : name_mapping kv.1 kv.2 ∈ d.component_data.flatMap to_named_sequence := by
    refine List.mem_flatMap.mpr ⟨m, hm, ?_⟩
    exact List.mem_map_of_mem _ hkv
  have hfail : isFailure (processItem true (name_mapping kv.1 kv.2)) = true := by
    unfold processItem
    have ho : getVal (name_mapping kv.1 kv.2) "odr" = getVal kv.2 "odr" :=
      getVal_setKey_ne kv.2 "name" "odr" (PyValue.str kv.1) (by decide)
    have he : getVal (name_mapping kv.1 kv.2) "enable" = getVal kv.2 "enable" :=
      getVal_setKey_ne kv.2 "name" "enable" (PyValue.str kv.1) (by decide)
    rw [if_pos (by rw [ho]; exact hodr), if_pos rfl, he, hen]
    rfl
  exact collectComponents_fail true _ _ hitem hfail

theorem get_components_missing_enable_witness :
    isFailure (Device.get_components ⟨1, 2, [[("gyro", [("odr", PyValue.int 200)])]], []⟩ true) =
      true :=
  get_components_missing_enable ⟨1, 2, [[("gyro", [("odr", PyValue.int 200)])]], []⟩
    ⟨[("gyro", [("odr", PyValue.int 200)])], by decide,
     ("gyro", [("odr", PyValue.int 200)]), by decide, by decide, rfl⟩

/-! ### The assembler: positional pairing and structural-mismatch aborts -/

theorem mapExcept_ok_mem {f : α → Except String β} : ∀ (l : List α) (ys : List β),
    mapExcept f l = .ok ys → ∀ x ∈ l, ∃ y, f x = .ok y
  | [], _, _, x, hx => by simp at hx
  | a :: rest, ys, h, x, hx => by
      simp only [mapExcept] at h
      cases ha : f a with
      | error e => rw [ha] at h; simp [exBind] at h
      | ok y =>
          rw [ha] at h
          simp only [exBind] at h
          cases hrest : mapExcept f rest with
          | error e => rw [hrest] at h; simp [exBind] at h
          | ok ys2 =>
              rcases List.mem_cons.mp hx with hx | hx
              · exact ⟨y, hx ▸ ha⟩
              · exact mapExcept_ok_mem rest ys2 hrest x hx

theorem mapExcept_map_of_total {f : α → Except String β} {g : α → β} :
    ∀ (l : List α), (∀ x ∈ l, f x = .ok (g x)) → mapExcept f l = .ok (l.map g)
  | [], _ => rfl
  | a :: rest, h => by
      simp only [mapExcept]
      simp only [h a (List.mem_cons_self _ _),
        mapExcept_map_of_total rest (fun x hx => h x (List.mem_cons_of_mem _ hx))]
      simp [exBind]

/-- The digest-shape assertion of lines 186-187 always passes, so a pair
is always processed into its data item. -/
theorem processPair_eq (subName : String) (r : TagRange) (f : DiskFile) :
    processPair subName r f = .ok (mkItem subName r f) := by
  unfold processPair
  rw [if_pos ⟨(fileId_shape f.content).1, (fileId_shape f.content).2.1⟩]

theorem processSubfolder_ok_inv (ranges : List TagRange) (sf : Subfolder)
    (ds : List DataItem) (h : processSubfolder ranges sf = .ok ds) :
    sf.files.all (fun f => ".csv".toList.isSuffixOf f.name.toList) = true ∧
    sf.files.length = (ranges.filter (fun r => r.label == sf.name)).length ∧
    ds = ((ranges.filter (fun r => r.label == sf.name)).zip sf.files).map
      (fun p => mkItem sf.name p.1 p.2) := by
  unfold processSubfolder at h
  by_cases hall : sf.files.all (fun f => ".csv".toList.isSuffixOf f.name.toList) = true
  · rw [hall] at h
    simp only [Bool.not_true, Bool.false_eq_true, if_false] at h
    by_cases hlen : (sf.files.length ==
        (ranges.filter (fun r => r.label == sf.name)).length) = true
    · rw [hlen] at h
      simp only [Bool.not_true, Bool.false_eq_true, if_false] at h
      have htot := mapExcept_map_of_total (g := fun p => mkItem sf.name p.1 p.2)
        ((ranges.filter (fun r => r.label == sf.name)).zip sf.files)
        (fun p _ => processPair_eq sf.name p.1 p.2)
      rw [htot] at h
      cases h
      exact ⟨hall, Nat.beq_eq_true_eq _ _ ▸ hlen, rfl⟩
    · rw [Bool.not_eq_true] at hlen
      rw [hlen] at h
      simp at h
  · rw [Bool.not_eq_true] at hall
    rw [hall] at h
    simp at h

theorem assembleMetadata_ok_inv (inp : AcqInput) (m : Manifest)
    (h : assemble_metadata inp = .ok m) :
    sameSet (inp.subfolders.map (fun sf => sf.name))
      ((inp.tagEvents.map (fun e => e.label)).dedup) = true ∧
    ∃ ranges, TagRange.from_tag_events inp.tagEvents = .ok ranges ∧
      ∃ itemss, mapExcept (processSubfolder ranges) inp.subfolders = .ok itemss ∧
        m = ⟨(inp.tagEvents.map (fun e => e.label)).dedup, itemss.flatten⟩ := by
  unfold assemble_metadata at h
  cases hdev : Device.model_validate inp.device with
  | error e => rw [hdev] at h; simp [exBind] at h
  | ok d =>
      rw [hdev] at h
      simp only [exBind] at h
      cases hcomp : d.get_components true with
      | error e => rw [hcomp] at h; simp [exBind] at h
      | ok comps =>
          rw [hcomp] at h
          simp only [exBind] at h
          by_cases hset : sameSet (inp.subfolders.map (fun sf => sf.name))
              ((inp.tagEvents.map (fun e => e.label)).dedup) = true
          · rw [hset] at h
            simp only [Bool.not_true, Bool.false_eq_true, if_false] at h
            cases hr : TagRange.from_tag_events inp.tagEvents with
            | error e => rw [hr] at h; simp [exBind] at h
            | ok ranges =>
                rw [hr] at h
                simp only [exBind] at h
                cases hmap : mapExcept (processSubfolder ranges) inp.subfolders with
                | error e => rw [hmap] at h; simp [exBind] at h
                | ok itemss =>
                    rw [hmap] at h
                    simp only [exBind] at h
                    cases h
                    exact ⟨hset, ranges, rfl, itemss, hmap, rfl⟩
          · rw [Bool.not_eq_true] at hset
            rw [hset] at h
            simp at h

/-- Scenario A input: one label `walk`, tag event pairs start@0/stop@10
and start@20/stop@25, a `walk/` subfolder with exactly two files, and a
minimal valid device document. -/
def inpA : AcqInput :=
  ⟨[⟨"walk", .start, 0⟩, ⟨"walk", .stop, 10⟩, ⟨"walk", .start, 20⟩, ⟨"walk", .stop, 25⟩],
   ⟨[("board_id", .int 1), ("fw_id", .int 2)], []⟩,
   [⟨"walk", [⟨"walk_1.csv", [1, 2, 3]⟩, ⟨"walk_2.csv", [4, 5, 6]⟩]⟩]⟩

/-- C1: on every successful assembly, the manifest data is exactly the
per-subfolder positional pairing of that label's tag ranges (in
reconstruction order) with that label's files (in listing order), one
data item per pair with class label and time bounds taken from the range;
the per-label counts agree and the classes are the distinct event labels.
In particular scenario A yields two `walk` items with time ranges
`(0, 10)` and `(20, 25)` and classes `walk`. -/
theorem assembler_positional_pairing :
    (∀ (inp : AcqInput) (m : Manifest) (ranges : List TagRange),
       assemble_metadata inp = .ok m →
       TagRange.from_tag_events inp.tagEvents = .ok ranges →
       m.data = (inp.subfolders.map (fun sf =>
           ((ranges.filter (fun r => r.label == sf.name)).zip sf.files).map
             (fun p => mkItem sf.name p.1 p.2))).flatten ∧
       (∀ sf ∈ inp.subfolders,
          sf.files.length = (ranges.filter (fun r => r.label == sf.name)).length) ∧
       m.classes = (inp.tagEvents.map (fun e => e.label)).dedup) ∧
    (assemble_metadata inpA).map (fun m =>
        (m.classes, m.data.map (fun d => (d.className, d.start_time, d.end_time)))) =
      .ok (["walk"], [("walk", (0 : Int), (10 : Int)), ("walk", 20, 25)]) := by
  constructor
  · intro inp m ranges hok hr
    obtain ⟨hset, ranges2, hr2, itemss, hmap, hm⟩ := assembleMetadata_ok_inv inp m hok
    rw [hr] at hr2
    cases hr2
    have htot : ∀ sf ∈ inp.subfolders, processSubfolder ranges sf =
        .ok (((ranges.filter (fun r => r.label == sf.name)).zip sf.files).map
          (fun p => mkItem sf.name p.1 p.2)) := by
      intro sf hsf
      obtain ⟨ds, hds⟩ := mapExcept_ok_mem inp.subfolders itemss hmap sf hsf
      obtain ⟨_, _, hd⟩ := processSubfolder_ok_inv ranges sf ds hds
      rw [← hd]
      exact hds
    have hmap2 := mapExcept_map_of_total inp.subfolders htot
    rw [hmap2] at hmap
    cases hmap
    refine ⟨by rw [hm], ?_, by rw [hm]⟩
    intro sf hsf
    obtain ⟨ds, hds⟩ := mapExcept_ok_mem inp.subfolders _ hmap2 sf hsf
    exact (processSubfolder_ok_inv ranges sf ds hds).2.1
  · decide

def manifestA : Manifest :=
  ⟨["walk"],
   [mkItem "walk" ⟨"walk", 0, 10⟩ ⟨"walk_1.csv", [1, 2, 3]⟩,
    mkItem "walk" ⟨"walk", 20, 25⟩ ⟨"walk_2.csv", [4, 5, 6]⟩]⟩

def rangesA : List TagRange := [⟨"walk", 0, 10⟩, ⟨"walk", 20, 25⟩]

theorem assembler_positional_pairing_witness :
    manifestA.data = (inpA.subfolders.map (fun sf =>
        ((rangesA.filter (fun r => r.label == sf.name)).zip sf.files).map
          (fun p => mkItem sf.name p.1 p.2))).flatten :=
  (assembler_positional_pairing.1 inpA manifestA rangesA (by decide) (by decide)).1

/-- C4: any structural mismatch — subfolder name set differing from the
distinct tag label set, a file without the `.csv` extension, or a
per-label file count differing from that label's tag-range count — makes
assembly fail, so the manifest document (only produced on success) is
never written. -/
theorem assembler_structural_mismatch (inp : AcqInput)
    (h : sameSet (inp.subfolders.map (fun sf => sf.name))
           ((inp.tagEvents.map (fun e => e.label)).dedup) = false ∨
         (∃ sf ∈ inp.subfolders, ∃ f ∈ sf.files,
            (".csv".toList.isSuffixOf f.name.toList) = false) ∨
         (∃ sf ∈ inp.subfolders, ∃ ranges,
            TagRange.from_tag_events inp.tagEvents = .ok ranges ∧
            sf.files.length ≠ (ranges.filter (fun r => r.label == sf.name)).length)) :
    isFailure (assemble_metadata inp) = true := by
  cases hres : assemble_metadata inp with
  | error e => rfl
  | ok m =>
      exfalso
      obtain ⟨hset, ranges, hr, itemss, hmap, _⟩ := assembleMetadata_ok_inv inp m hres
      rcases h with h | ⟨sf, hsf, f, hf, hext⟩ | ⟨sf, hsf, ranges2, hr2, hlen⟩
      · rw [hset] at h
        simp at h
      · obtain ⟨ds, hds⟩ := mapExcept_ok_mem inp.subfolders itemss hmap sf hsf
        obtain ⟨hall, _, _⟩ := processSubfolder_ok_inv ranges sf ds hds
        have := List.all_eq_true.mp hall f hf
        rw [hext] at this
        simp at this
      · rw [hr] at hr2
        cases hr2
        obtain ⟨ds, hds⟩ := mapExcept_ok_mem inp.subfolders itemss hmap sf hsf
        obtain ⟨_, hlen2, _⟩ := processSubfolder_ok_inv ranges sf ds hds
        exact hlen hlen2

/-- Scenario B input: as scenario A, but the `walk/` subfolder holds 3
files against 2 reconstructed ranges. -/
def inpB : AcqInput :=
  ⟨[⟨"walk", .start, 0⟩, ⟨"walk", .stop, 10⟩, ⟨"walk", .start, 20⟩, ⟨"walk", .stop, 25⟩],
   ⟨[("board_id", .int 1), ("fw_id", .int 2)], []⟩,
   [⟨"walk", [⟨"walk_1.csv", [1, 2, 3]⟩, ⟨"walk_2.csv", [4, 5, 6]⟩,
      ⟨"walk_3.csv", [7, 8, 9]⟩]⟩]⟩

theorem assembler_structural_mismatch_witness :
    isFailure (assemble_metadata inpB) = true :=
  assembler_structural_mismatch inpB
    (Or.inr (Or.inr ⟨⟨"walk", [⟨"walk_1.csv", [1, 2, 3]⟩, ⟨"walk_2.csv", [4, 5, 6]⟩,
        ⟨"walk_3.csv", [7, 8, 9]⟩]⟩, by decide,
      [⟨"walk", 0, 10⟩, ⟨"walk", 20, 25⟩], by decide, by decide⟩))

end Vic
